import Mathlib

/-!
Verification of the AI-reply repository: shallow embeddings of the pure
algorithms in `src/respond.py`, `src/embeddings/2_deduplicate_sentences.py`,
`src/embeddings/3_split_to_chunks.py`, `src/embeddings/4_chunking.py`,
`src/embeddings/4_create_embedding_to_chromaDB.py` and
`src/embeddings/7_embeddings.py`, together with theorems settling the
specification claims about them.

Python strings manipulated character-wise are modelled as `List Char`;
Python floats are modelled in exact real arithmetic (`ℝ`); fallible
external calls (OpenAI embeddings, ChromaDB) are modelled with `Except`.
-/

namespace AIReply

/-! ### src/respond.py — subject construction in build_reply_message -/

/-- Python `str.lower()` on a character-list string. -/
def strLower (s : List Char) : List Char := s.map Char.toLower

/-- Python `s.startswith(p)`: the first `p.length` characters of `s` equal `p`. -/
def pyStartsWith (s p : List Char) : Bool := decide (s.take p.length = p)

/-- The literal `"re:"` tested by build_reply_message. -/
def reColon : List Char := ['r', 'e', ':']

/-- The subject computation of `build_reply_message` (src/respond.py,
lines 76–80): prepend `"Re: "` unless the lower-cased subject already
starts with `"re:"`. -/
def replySubject (orig_subject : List Char) : List Char :=
  if pyStartsWith (strLower orig_subject) reColon then orig_subject
  else "Re: ".data ++ orig_subject

/-! ### src/embeddings/2_deduplicate_sentences.py — rebuild loop of main -/

/-- The rebuild loop of `main` (src/embeddings/2_deduplicate_sentences.py,
lines 197–209): walk the sentence list; a sentence in the dedup set is
kept only if not recorded in the occurrence tracker (`seen`), and is then
recorded; any other sentence is always kept. -/
def rebuildDedup (dedup : List String) : List String → List String → List String
  | [], _seen => []
  | s :: rest, seen =>
    if s ∈ dedup then
      if s ∈ seen then rebuildDedup dedup rest seen
      else s :: rebuildDedup dedup rest (s :: seen)
    else s :: rebuildDedup dedup rest seen

/-- The rebuild loop as entered by `main`: the tracker starts empty. -/
def mainRebuild (dedup sentences : List String) : List String :=
  rebuildDedup dedup sentences []

theorem rebuildDedup_sublist (dedup : List String) :
    ∀ (l seen : List String), (rebuildDedup dedup l seen).Sublist l := by
  intro l
  induction l with
  | nil => intro seen; simp [rebuildDedup]
  | cons s rest ih =>
    intro seen
    simp only [rebuildDedup]
    by_cases hD : s ∈ dedup
    · by_cases hS : s ∈ seen
      · simp only [if_pos hD, if_pos hS]
        exact (ih seen).cons s
      · simp only [if_pos hD, if_neg hS]
        exact (ih (s :: seen)).cons₂ s
    · simp only [if_neg hD]
      exact (ih seen).cons₂ s

theorem rebuildDedup_count_of_not_mem (dedup : List String) (s : String)
    (hs : s ∉ dedup) :
    ∀ (l seen : List String),
      (rebuildDedup dedup l seen).count s = l.count s := by
  intro l
  induction l with
  | nil => intro seen; simp [rebuildDedup]
  | cons a rest ih =>
    intro seen
    simp only [rebuildDedup]
    by_cases hD : a ∈ dedup
    · have hne : a ≠ s := fun h => hs (h ▸ hD)
      by_cases hS : a ∈ seen
      · simp only [if_pos hD, if_pos hS]
        rw [ih seen, List.count_cons_of_ne (fun h => hne h.symm)]
      · simp only [if_pos hD, if_neg hS]
        rw [List.count_cons_of_ne (fun h => hne h.symm), ih (a :: seen),
          List.count_cons_of_ne (fun h => hne h.symm)]
    · simp only [if_neg hD]
      by_cases hne : a = s
      · subst hne
        rw [List.count_cons_self, ih seen, List.count_cons_self]
      · rw [List.count_cons_of_ne (fun h => hne h.symm), ih seen,
          List.count_cons_of_ne (fun h => hne h.symm)]

theorem rebuildDedup_count_of_mem (dedup : List String) (s : String)
    (hs : s ∈ dedup) :
    ∀ (l seen : List String),
      (rebuildDedup dedup l seen).count s
        = if s ∈ seen then 0 else min 1 (l.count s) := by
  intro l
  induction l with
  | nil =>
    intro seen
    simp [rebuildDedup]
  | cons a rest ih =>
    intro seen
    simp only [rebuildDedup]
    by_cases hD : a ∈ dedup
    · by_cases hS : a ∈ seen
      · simp only [if_pos hD, if_pos hS]
        rw [ih seen]
        by_cases heq : a = s
        · subst heq
          simp [hS]
        · rw [List.count_cons_of_ne (fun h => heq h.symm)]
      · simp only [if_pos hD, if_neg hS]
        by_cases heq : a = s
        · subst heq
          rw [List.count_cons_self, ih (a :: seen),
            if_pos (List.mem_cons_self a seen), if_neg hS, List.count_cons_self]
          omega
        · rw [List.count_cons_of_ne (fun (h : s = a) => heq h.symm), ih (a :: seen),
            List.count_cons_of_ne (fun (h : s = a) => heq h.symm)]
          have hiff : s ∈ a :: seen ↔ s ∈ seen := by
            constructor
            · intro h
              rcases List.mem_cons.mp h with h1 | h1
              · exact absurd h1.symm heq
              · exact h1
            · intro h
              exact List.mem_cons_of_mem a h
          rw [if_congr hiff rfl rfl]
    · have hne : a ≠ s := fun h => hD (h ▸ hs)
      simp only [if_neg hD]
      rw [List.count_cons_of_ne (fun h => hne h.symm), ih seen,
        List.count_cons_of_ne (fun h => hne h.symm)]

/-- Specification of the rebuild output, phrased positionally from the
claim: scan the sentences in original order and keep the occurrence at
index `i` exactly when the sentence is outside the dedup set or has no
earlier occurrence (it is not in `sentences.take i`), i.e. keep every
occurrence of non-dedup sentences and only the first occurrence of each
dedup-set sentence. -/
def keepFirstSpec (dedup sentences : List String) : List String :=
  (List.range sentences.length).filterMap (fun i =>
    if sentences.getD i "" ∈ dedup ∧ sentences.getD i "" ∈ sentences.take i
    then none
    else some (sentences.getD i ""))

/-- Prefix-accumulator form of `keepFirstSpec`: `pre` is the list of
sentences already scanned; an element is dropped exactly when it is in the
dedup set and has already occurred. -/
def keepFirstPre (dedup : List String) : List String → List String → List String
  | [], _pre => []
  | s :: rest, pre =>
    if s ∈ dedup ∧ s ∈ pre then keepFirstPre dedup rest (pre ++ [s])
    else s :: keepFirstPre dedup rest (pre ++ [s])

theorem rebuildDedup_eq_keepFirstPre (dedup : List String) :
    ∀ (l seen pre : List String),
      (∀ a, a ∈ dedup → (a ∈ seen ↔ a ∈ pre)) →
      rebuildDedup dedup l seen = keepFirstPre dedup l pre := by
  intro l
  induction l with
  | nil =>
    intro seen pre _
    simp [rebuildDedup, keepFirstPre]
  | cons s rest ih =>
    intro seen pre hinv
    by_cases hD : s ∈ dedup
    · by_cases hS : s ∈ seen
      · have hP : s ∈ pre := (hinv s hD).mp hS
        simp only [rebuildDedup, keepFirstPre, if_pos hD, if_pos hS,
          if_pos (And.intro hD hP)]
        apply ih
        intro a ha
        constructor
        · intro h
          exact List.mem_append_left _ ((hinv a ha).mp h)
        · intro h
          rcases List.mem_append.mp h with h1 | h1
          · exact (hinv a ha).mpr h1
          · have haeq : a = s := by simpa using h1
            exact haeq ▸ hS
      · have hP : s ∉ pre := fun h => hS ((hinv s hD).mpr h)
        simp only [rebuildDedup, keepFirstPre, if_pos hD, if_neg hS,
          if_neg (fun hc : s ∈ dedup ∧ s ∈ pre => hP hc.2)]
        congr 1
        apply ih
        intro a ha
        constructor
        · intro h
          rcases List.mem_cons.mp h with h1 | h1
          · exact h1 ▸ List.mem_append_right pre (by simp)
          · exact List.mem_append_left _ ((hinv a ha).mp h1)
        · intro h
          rcases List.mem_append.mp h with h1 | h1
          · exact List.mem_cons_of_mem _ ((hinv a ha).mpr h1)
          · have haeq : a = s := by simpa using h1
            exact haeq ▸ List.mem_cons_self s seen
    · simp only [rebuildDedup, keepFirstPre, if_neg hD,
        if_neg (fun hc : s ∈ dedup ∧ s ∈ pre => hD hc.1)]
      congr 1
      apply ih
      intro a ha
      constructor
      · intro h
        exact List.mem_append_left _ ((hinv a ha).mp h)
      · intro h
        rcases List.mem_append.mp h with h1 | h1
        · exact (hinv a ha).mpr h1
        · have haeq : a = s := by simpa using h1
          exact absurd (haeq ▸ ha) hD

theorem keepFirstPre_eq_filterMap (dedup : List String) :
    ∀ (l pre : List String),
      keepFirstPre dedup l pre
        = (List.range l.length).filterMap (fun i =>
            if l.getD i "" ∈ dedup ∧ l.getD i "" ∈ (pre ++ l.take i)
            then none
            else some (l.getD i "")) := by
  intro l
  induction l with
  | nil =>
    intro pre
    simp [keepFirstPre]
  | cons s rest ih =>
    intro pre
    rw [List.length_cons, List.range_succ_eq_map, List.filterMap_cons,
      List.filterMap_map]
    have hf : ((fun i =>
        if (s :: rest).getD i "" ∈ dedup
            ∧ (s :: rest).getD i "" ∈ (pre ++ (s :: rest).take i)
        then none
        else some ((s :: rest).getD i "")) ∘ Nat.succ)
        = (fun i =>
            if rest.getD i "" ∈ dedup
                ∧ rest.getD i "" ∈ ((pre ++ [s]) ++ rest.take i)
            then none
            else some (rest.getD i "")) := by
      funext i
      simp only [Function.comp, Nat.succ_eq_add_one, List.getD_cons_succ,
        List.take_succ_cons]
      rw [List.append_cons]
    rw [hf, ← ih (pre ++ [s])]
    simp only [List.getD_cons_zero, List.take_zero, List.append_nil]
    by_cases hc : s ∈ dedup ∧ s ∈ pre
    · rw [if_pos hc]
      simp only [keepFirstPre, if_pos hc]
    · rw [if_neg hc]
      simp only [keepFirstPre, if_neg hc]

theorem mainRebuild_eq_keepFirstSpec (dedup sentences : List String) :
    mainRebuild dedup sentences = keepFirstSpec dedup sentences := by
  rw [mainRebuild,
    rebuildDedup_eq_keepFirstPre dedup sentences [] [] (by simp),
    keepFirstPre_eq_filterMap, keepFirstSpec]
  simp only [List.nil_append]

/-- C8: the rebuild loop of `main` produces the positional keep-first
filter of the input — in original order, every occurrence of each sentence
outside the dedup set and exactly the first occurrence (the one with no
earlier occurrence) of each dedup-set sentence that occurs; consequently
the output is a subsequence of the input, preserves the occurrence count
of non-dedup sentences, and each dedup-set member appears at most once. -/
theorem dedup_rebuild_spec (dedup sentences : List String) :
    mainRebuild dedup sentences = keepFirstSpec dedup sentences
    ∧ (mainRebuild dedup sentences).Sublist sentences
    ∧ (∀ s, s ∉ dedup →
        (mainRebuild dedup sentences).count s = sentences.count s)
    ∧ (∀ s, s ∈ dedup →
        (mainRebuild dedup sentences).count s = min 1 (sentences.count s))
    ∧ (∀ s, s ∈ dedup → (mainRebuild dedup sentences).count s ≤ 1) := by
  refine ⟨mainRebuild_eq_keepFirstSpec dedup sentences,
    rebuildDedup_sublist dedup sentences [], ?_, ?_, ?_⟩
  · intro s hs
    exact rebuildDedup_count_of_not_mem dedup s hs sentences []
  · intro s hs
    have h := rebuildDedup_count_of_mem dedup s hs sentences []
    simpa using h
  · intro s hs
    have h := rebuildDedup_count_of_mem dedup s hs sentences []
    simp only [List.not_mem_nil, if_false] at h
    rw [mainRebuild, h]
    exact min_le_left 1 _

/-- Concrete run of the C8 theorem: with dedup set {"b"} and input
["b","a","b"], the rebuild equals the keep-first filter (hence keeps the
FIRST "b", giving ["b","a"], not ["a","b"]); on ["a","b","a","b"] every
occurrence of "a" is kept and "b" exactly once, via the count clauses. -/
theorem dedup_rebuild_spec_witness :
    (mainRebuild ["b"] ["b", "a", "b"] = keepFirstSpec ["b"] ["b", "a", "b"]
      ∧ mainRebuild ["b"] ["b", "a", "b"] = ["b", "a"])
    ∧ ("a" ∉ (["b"] : List String)
      ∧ (mainRebuild ["b"] ["a", "b", "a", "b"]).count "a"
          = (["a", "b", "a", "b"] : List String).count "a")
    ∧ ("b" ∈ (["b"] : List String)
      ∧ (mainRebuild ["b"] ["a", "b", "a", "b"]).count "b"
          = min 1 ((["a", "b", "a", "b"] : List String).count "b")) :=
  ⟨⟨(dedup_rebuild_spec ["b"] ["b", "a", "b"]).1, by decide⟩,
   ⟨by decide, (dedup_rebuild_spec ["b"] ["a", "b", "a", "b"]).2.2.1 "a" (by decide)⟩,
   ⟨by decide, (dedup_rebuild_spec ["b"] ["a", "b", "a", "b"]).2.2.2.1 "b" (by decide)⟩⟩

theorem pyStartsWith_re_append (s : List Char) :
    pyStartsWith (strLower ("Re: ".data ++ s)) reColon = true := by
  have hdata : "Re: ".data = ['R', 'e', ':', ' '] := rfl
  have h1 : Char.toLower 'R' = 'r' := by decide
  have h2 : Char.toLower 'e' = 'e' := by decide
  have h3 : Char.toLower ':' = ':' := by decide
  have h4 : Char.toLower ' ' = ' ' := by decide
  have hlow : strLower ("Re: ".data ++ s)
      = 'r' :: 'e' :: ':' :: ' ' :: strLower s := by
    rw [hdata]
    simp only [strLower, List.map_cons, List.map_append, h1, h2, h3, h4]
    rfl
  rw [hlow]
  simp [pyStartsWith, reColon, List.take]

/-- C9: the reply subject built by `build_reply_message` is `"Re: "` plus the
original subject when the original does not already start with `"re:"`
case-insensitively, and is the original unchanged otherwise; the result
always starts with `"re:"` case-insensitively, and the transformation is
idempotent. -/
theorem build_reply_message_subject (s : List Char) :
    (pyStartsWith (strLower s) reColon = false →
      replySubject s = "Re: ".data ++ s)
    ∧ (pyStartsWith (strLower s) reColon = true → replySubject s = s)
    ∧ pyStartsWith (strLower (replySubject s)) reColon = true
    ∧ replySubject (replySubject s) = replySubject s := by
  refine ⟨?_, ?_, ?_, ?_⟩
  · intro h
    simp [replySubject, h]
  · intro h
    simp [replySubject, h]
  · by_cases h : pyStartsWith (strLower s) reColon
    · simp only [replySubject, if_pos h]
      exact h
    · simp only [replySubject, if_neg h]
      exact pyStartsWith_re_append s
  · by_cases h : pyStartsWith (strLower s) reColon
    · simp [replySubject, h]
    · have h2 : pyStartsWith (strLower ("Re: ".data ++ s)) reColon = true :=
        pyStartsWith_re_append s
      simp only [replySubject, if_neg h]
      rw [if_pos h2]

/-- Concrete run of the C9 theorem: replying to subject "Hi" yields
"Re: Hi", and replying to a subject already of the form "RE: x" leaves it
unchanged. -/
theorem build_reply_message_subject_witness :
    (pyStartsWith (strLower "Hi".data) reColon = false
      ∧ replySubject "Hi".data = "Re: ".data ++ "Hi".data)
    ∧ (pyStartsWith (strLower "RE: x".data) reColon = true
      ∧ replySubject "RE: x".data = "RE: x".data) :=
  ⟨⟨by decide, (build_reply_message_subject "Hi".data).1 (by decide)⟩,
   ⟨by decide, (build_reply_message_subject "RE: x".data).2.1 (by decide)⟩⟩

/-! ### Vector arithmetic: cosine_similarity (src/embeddings/7_embeddings.py,
src/chatbot/chatgpt_api.py) and l2_normalize
(src/embeddings/4_create_embedding_to_chromaDB.py), in exact real
arithmetic. -/

/-- `sum(x*x for x in v)`, the sum of squares underlying both
`np.linalg.norm` and `math.sqrt(sum(x*x ...))`. -/
def sumSquares (v : List ℝ) : ℝ := (v.map (fun x => x * x)).sum

/-- The Euclidean norm `np.linalg.norm(v)` / `math.sqrt(sum(x*x ...))`. -/
noncomputable def pyNorm (v : List ℝ) : ℝ := Real.sqrt (sumSquares v)

/-- `np.dot(v1, v2)` on equal-length one-dimensional vectors. -/
def dotList (v1 v2 : List ℝ) : ℝ := (List.zipWith (fun a b => a * b) v1 v2).sum

/-- `cosine_similarity` (src/embeddings/7_embeddings.py lines 88–96 and
src/chatbot/chatgpt_api.py lines 106–114): return 0 when either norm is
zero, otherwise the normalized dot product. -/
noncomputable def cosine_similarity (v1 v2 : List ℝ) : ℝ :=
  if pyNorm v1 = 0 ∨ pyNorm v2 = 0 then 0
  else dotList v1 v2 / (pyNorm v1 * pyNorm v2)

/-- `l2_normalize` (src/embeddings/4_create_embedding_to_chromaDB.py lines
85–100): on zero norm return the vector as-is with norms (0, 0); otherwise
divide each entry by the norm and recompute the norm of the result. -/
noncomputable def l2_normalize (v : List ℝ) : List ℝ × ℝ × ℝ :=
  if pyNorm v = 0 then (v, pyNorm v, 0)
  else (v.map (fun x => x / pyNorm v), pyNorm v,
        pyNorm (v.map (fun x => x / pyNorm v)))

theorem sumSquares_nonneg (v : List ℝ) : 0 ≤ sumSquares v := by
  apply List.sum_nonneg
  intro x hx
  rcases List.mem_map.mp hx with ⟨y, _, rfl⟩
  exact mul_self_nonneg y

theorem pyNorm_mul_self (v : List ℝ) : pyNorm v * pyNorm v = sumSquares v :=
  Real.mul_self_sqrt (sumSquares_nonneg v)

theorem sumSquares_map_div (v : List ℝ) (n : ℝ) :
    sumSquares (v.map (fun x => x / n)) = sumSquares v / (n * n) := by
  induction v with
  | nil => simp [sumSquares]
  | cons a t ih =>
    simp only [sumSquares, List.map_cons, List.sum_cons] at ih ⊢
    rw [ih, div_mul_div_comm, add_div]

theorem pyNorm_map_div_self (v : List ℝ) (h : pyNorm v ≠ 0) :
    pyNorm (v.map (fun x => x / pyNorm v)) = 1 := by
  rw [pyNorm, sumSquares_map_div, pyNorm_mul_self,
    div_self (fun h0 => h (by rw [pyNorm, h0, Real.sqrt_zero])),
    Real.sqrt_one]

/-- C3: `cosine_similarity` is total; with both norms nonzero it returns
`dot v1 v2 / (‖v1‖ * ‖v2‖)` and that divisor is nonzero; with either norm
zero it returns 0 without dividing. -/
theorem cosine_similarity_total (v1 v2 : List ℝ) :
    (pyNorm v1 = 0 ∨ pyNorm v2 = 0 → cosine_similarity v1 v2 = 0)
    ∧ (pyNorm v1 ≠ 0 → pyNorm v2 ≠ 0 →
        cosine_similarity v1 v2 = dotList v1 v2 / (pyNorm v1 * pyNorm v2)
        ∧ pyNorm v1 * pyNorm v2 ≠ 0) := by
  constructor
  · intro h
    simp [cosine_similarity, h]
  · intro h1 h2
    have hor : ¬ (pyNorm v1 = 0 ∨ pyNorm v2 = 0) := by tauto
    exact ⟨by simp [cosine_similarity, hor], mul_ne_zero h1 h2⟩

theorem pyNorm_single_one : pyNorm [(1 : ℝ)] = 1 := by
  simp [pyNorm, sumSquares]

/-- Concrete run of the C3 theorem on the unit vector [1]: both norms are
nonzero, the value is the normalized dot product and the divisor is
nonzero. -/
theorem cosine_similarity_total_witness :
    cosine_similarity [(1 : ℝ)] [(1 : ℝ)]
      = dotList [(1 : ℝ)] [(1 : ℝ)] / (pyNorm [(1 : ℝ)] * pyNorm [(1 : ℝ)])
    ∧ pyNorm [(1 : ℝ)] * pyNorm [(1 : ℝ)] ≠ 0 := by
  have h1 : pyNorm [(1 : ℝ)] ≠ 0 := by
    rw [pyNorm_single_one]
    norm_num
  exact (cosine_similarity_total [(1 : ℝ)] [(1 : ℝ)]).2 h1 h1

/-- C6: on a vector of nonzero norm, `l2_normalize` returns
`(v / ‖v‖, ‖v‖, 1)` and the returned vector has norm exactly 1 in exact
arithmetic; on zero norm it returns the vector unchanged with norms
(0, 0); the map is idempotent on its own output vector. -/
theorem l2_normalize_spec (v : List ℝ) :
    (pyNorm v ≠ 0 →
      l2_normalize v = (v.map (fun x => x / pyNorm v), pyNorm v, 1)
      ∧ pyNorm (l2_normalize v).1 = 1)
    ∧ (pyNorm v = 0 → l2_normalize v = (v, 0, 0))
    ∧ (l2_normalize (l2_normalize v).1).1 = (l2_normalize v).1 := by
  refine ⟨?_, ?_, ?_⟩
  · intro h
    constructor
    · simp [l2_normalize, h, pyNorm_map_div_self v h]
    · simp only [l2_normalize, if_neg h]
      exact pyNorm_map_div_self v h
  · intro h
    simp [l2_normalize, h]
  · by_cases h : pyNorm v = 0
    · simp [l2_normalize, h]
    · have hfst : (l2_normalize v).1 = v.map (fun x => x / pyNorm v) := by
        simp [l2_normalize, h]
      have hone : pyNorm (v.map (fun x => x / pyNorm v)) = 1 :=
        pyNorm_map_div_self v h
      rw [hfst, l2_normalize, if_neg (by rw [hone]; norm_num)]
      simp only [hone, div_one]
      exact List.map_id' _

/-- Concrete run of the C6 theorem on the unit vector [1]: the norm is
nonzero, the normalization returns ([1/1], 1, 1) and the output has norm
1. -/
theorem l2_normalize_spec_witness :
    l2_normalize [(1 : ℝ)]
      = ([(1 : ℝ)].map (fun x => x / pyNorm [(1 : ℝ)]), pyNorm [(1 : ℝ)], 1)
    ∧ pyNorm (l2_normalize [(1 : ℝ)]).1 = 1 := by
  have h1 : pyNorm [(1 : ℝ)] ≠ 0 := by
    rw [pyNorm_single_one]
    norm_num
  exact (l2_normalize_spec [(1 : ℝ)]).1 h1

/-! ### Token chunking: chunk_text_with_overlap
(src/embeddings/3_split_to_chunks.py lines 39–70 and
src/embeddings/4_chunking.py lines 34–64).

The tiktoken tokenizer returned by `tiktoken.get_encoding(encoding_name)`
is external; it is abstracted as a pair of encode/decode functions.  The
Python `while` loop is embedded with explicit fuel: `none` means the fuel
ran out, so divergence of the source loop corresponds to the result being
`none` for every fuel. -/

/-- Abstraction of a tiktoken encoding object: `encode` and `decode`. -/
structure Encoding where
  encode : String → List Nat
  decode : List Nat → String

/-- Clamp one bound of a Python slice `l[a:b]` to `[0, len]`, with
negative indices counted from the end. -/
def pySliceIdx (len : Nat) (i : Int) : Nat :=
  if i < 0 then ((len : Int) + i).toNat else min i.toNat len

/-- Python slice `l[a:b]`. -/
def pySlice {α : Type} (l : List α) (a b : Int) : List α :=
  (l.take (pySliceIdx l.length b)).drop (pySliceIdx l.length a)

/-- The sliding-window `while` loop of `chunk_text_with_overlap` in
src/embeddings/3_split_to_chunks.py: while `start < total_tokens`, decode
`tokens[start : start + chunk_size]`, append it, and advance `start` by
`chunk_size - overlap`. -/
def chunkLoop3 (decode : List Nat → String) (tokens : List Nat)
    (chunk_size overlap : Int) : Int → Nat → Option (List String)
  | start, fuel =>
    if start < (tokens.length : Int) then
      match fuel with
      | 0 => none
      | f + 1 =>
        (chunkLoop3 decode tokens chunk_size overlap
            (start + (chunk_size - overlap)) f).map
          (fun rest => decode (pySlice tokens start (start + chunk_size)) :: rest)
    else some []
termination_by _start fuel => fuel

/-- The sliding-window `while` loop of `chunk_text_with_overlap` in
src/embeddings/4_chunking.py (textually identical to the revision in
3_split_to_chunks.py except for the logging level). -/
def chunkLoop4 (decode : List Nat → String) (tokens : List Nat)
    (chunk_size overlap : Int) : Int → Nat → Option (List String)
  | start, fuel =>
    if start < (tokens.length : Int) then
      match fuel with
      | 0 => none
      | f + 1 =>
        (chunkLoop4 decode tokens chunk_size overlap
            (start + (chunk_size - overlap)) f).map
          (fun rest => decode (pySlice tokens start (start + chunk_size)) :: rest)
    else some []
termination_by _start fuel => fuel

/-- `chunk_text_with_overlap` of src/embeddings/3_split_to_chunks.py:
encode the text, then run the sliding-window loop from `start = 0`. -/
def chunk_text_with_overlap_v3 (enc : Encoding) (text : String)
    (chunk_size overlap : Int) (fuel : Nat) : Option (List String) :=
  chunkLoop3 enc.decode (enc.encode text) chunk_size overlap 0 fuel

/-- `chunk_text_with_overlap` of src/embeddings/4_chunking.py. -/
def chunk_text_with_overlap_v4 (enc : Encoding) (text : String)
    (chunk_size overlap : Int) (fuel : Nat) : Option (List String) :=
  chunkLoop4 enc.decode (enc.encode text) chunk_size overlap 0 fuel

/-- A concrete encoding (one token per character) used to evaluate the
chunking theorems on explicit inputs. -/
def natEnc : Encoding :=
  { encode := fun s => s.data.map Char.toNat
    decode := fun l => String.mk (l.map Char.ofNat) }

theorem pySlice_eq_drop_take {α : Type} (l : List α) (s : Nat) (c : Int)
    (hc : 0 ≤ c) :
    pySlice l (s : Int) ((s : Int) + c) = (l.drop s).take c.toNat := by
  unfold pySlice pySliceIdx
  rw [if_neg (by omega), if_neg (by omega)]
  have hb : ((s : Int) + c).toNat = s + c.toNat := by omega
  have ha : (s : Int).toNat = s := by omega
  rw [hb, ha, List.drop_take]
  by_cases hs : s ≤ l.length
  · rw [min_eq_left hs]
    by_cases hsc : s + c.toNat ≤ l.length
    · rw [min_eq_left hsc]
      have h1 : s + c.toNat - s = c.toNat := by omega
      rw [h1]
    · rw [min_eq_right (by omega)]
      rw [List.take_of_length_le (by rw [List.length_drop]),
        List.take_of_length_le (by rw [List.length_drop]; omega)]
  · rw [show min (s + c.toNat) l.length = l.length from min_eq_right (by omega),
      show min s l.length = l.length from min_eq_right (by omega),
      Nat.sub_self, List.take_zero, List.drop_eq_nil_of_le (by omega),
      List.take_nil]

theorem chunkLoop4_windows (d : List Nat → String) (tokens : List Nat)
    (c v : Int) (hc : 0 < c) (_hv : 0 ≤ v) (hvc : v < c) :
    ∀ (fuel : Nat) (s : Nat), tokens.length ≤ s + fuel →
      ∃ ws : List (List Nat),
        chunkLoop4 d tokens c v (s : Int) fuel = some (ws.map d)
        ∧ (∀ i, (h : i < ws.length) →
            ws.get ⟨i, h⟩
              = (tokens.drop (s + (c - v).toNat * i)).take c.toNat)
        ∧ (∀ i, i < ws.length → s + (c - v).toNat * i < tokens.length)
        ∧ (∀ j, s + (c - v).toNat * j < tokens.length → j < ws.length) := by
  intro fuel
  induction fuel with
  | zero =>
    intro s hs
    refine ⟨[], ?_, ?_, ?_, ?_⟩
    · simp only [chunkLoop4]
      rw [if_neg (by omega)]
      rfl
    · intro i h
      exact absurd h (by simp)
    · intro i h
      exact absurd h (by simp)
    · intro j hj
      exfalso
      omega
  | succ f ih =>
    intro s hs
    by_cases hlt : s < tokens.length
    · obtain ⟨ws', h1, h2, h3, h4⟩ := ih (s + (c - v).toNat) (by omega)
      refine ⟨(tokens.drop s).take c.toNat :: ws', ?_, ?_, ?_, ?_⟩
      · simp only [chunkLoop4]
        rw [if_pos (by omega)]
        have harg : (s : Int) + (c - v) = ((s + (c - v).toNat : Nat) : Int) := by
          omega
        rw [harg, h1, pySlice_eq_drop_take tokens s c (le_of_lt hc)]
        rfl
      · intro i h
        match i with
        | 0 => simp
        | Nat.succ k =>
          have hk : k < ws'.length := by
            simpa using h
          rw [List.get_cons_succ, h2 k hk]
          have harith : s + (c - v).toNat + (c - v).toNat * k
              = s + (c - v).toNat * (k + 1) := by ring
          rw [harith]
      · intro i h
        match i with
        | 0 => simpa using hlt
        | Nat.succ k =>
          have hk : k < ws'.length := by
            simpa using h
          have := h3 k hk
          have hmul : (c - v).toNat * Nat.succ k
              = (c - v).toNat * k + (c - v).toNat := Nat.mul_succ _ _
          omega
      · intro j hj
        match j with
        | 0 => simp
        | Nat.succ k =>
          have hmul : (c - v).toNat * Nat.succ k
              = (c - v).toNat * k + (c - v).toNat := Nat.mul_succ _ _
          have hk : k < ws'.length := h4 k (by omega)
          simp only [List.length_cons]
          omega
    · refine ⟨[], ?_, ?_, ?_, ?_⟩
      · simp only [chunkLoop4]
        rw [if_neg (by omega)]
        rfl
      · intro i h
        exact absurd h (by simp)
      · intro i h
        exact absurd h (by simp)
      · intro j hj
        exfalso
        omega

/-- C1: with `0 < chunk_size` and `0 ≤ overlap < chunk_size`,
`chunk_text_with_overlap` (4_chunking.py revision) encodes the text and
returns exactly the decoded windows `tokens[s : s + chunk_size]` for
`s = 0, (chunk_size - overlap), 2*(chunk_size - overlap), ...` while `s`
is below the token count: the i-th chunk starts at token index
`i * (chunk_size - overlap)`, every chunk holds at most `chunk_size`
tokens, and each chunk after the first begins with the last `overlap`
tokens of its full-size predecessor. -/
theorem chunk_text_with_overlap_windows (enc : Encoding) (text : String)
    (c v : Int) (hc : 0 < c) (hv : 0 ≤ v) (hvc : v < c)
    (fuel : Nat) (hfuel : (enc.encode text).length ≤ fuel) :
    ∃ ws : List (List Nat),
      chunk_text_with_overlap_v4 enc text c v fuel = some (ws.map enc.decode)
      ∧ (∀ i, (h : i < ws.length) →
          ws.get ⟨i, h⟩
            = ((enc.encode text).drop ((c - v).toNat * i)).take c.toNat)
      ∧ (∀ i, i < ws.length → (c - v).toNat * i < (enc.encode text).length)
      ∧ (∀ j, (c - v).toNat * j < (enc.encode text).length → j < ws.length)
      ∧ (∀ w, w ∈ ws → w.length ≤ c.toNat)
      ∧ (∀ i, (h : i + 1 < ws.length) →
          (ws.get ⟨i, Nat.lt_of_succ_lt h⟩).length = c.toNat →
          (ws.get ⟨i + 1, h⟩).take v.toNat
            = (ws.get ⟨i, Nat.lt_of_succ_lt h⟩).drop (c.toNat - v.toNat)) := by
  obtain ⟨ws, h1, h2, h3, h4⟩ :=
    chunkLoop4_windows enc.decode (enc.encode text) c v hc hv hvc fuel 0
      (by omega)
  have h2' : ∀ i, (h : i < ws.length) →
      ws.get ⟨i, h⟩
        = ((enc.encode text).drop ((c - v).toNat * i)).take c.toNat := by
    intro i h
    rw [h2 i h, Nat.zero_add]
  refine ⟨ws, ?_, h2', ?_, ?_, ?_, ?_⟩
  · rw [chunk_text_with_overlap_v4, show (0 : Int) = ((0 : Nat) : Int) from rfl, h1]
  · intro i h
    have := h3 i h
    omega
  · intro j hj
    exact h4 j (by omega)
  · intro w hw
    obtain ⟨⟨i, hi⟩, rfl⟩ := List.mem_iff_get.mp hw
    rw [h2' i hi, List.length_take]
    exact min_le_left _ _
  · intro i h hfull
    have hstep : c.toNat - v.toNat = (c - v).toNat := by omega
    have hv' : v.toNat ≤ c.toNat := by omega
    rw [h2' (i + 1) h, h2' i (Nat.lt_of_succ_lt h), List.take_take,
      min_eq_left hv', List.drop_take, List.drop_drop, hstep]
    have harith1 : c.toNat - (c - v).toNat = v.toNat := by omega
    have harith2 : (c - v).toNat * i + (c - v).toNat = (c - v).toNat * (i + 1) := by
      ring
    rw [harith1, harith2]

/-- Concrete run of the C1 theorem: text "ab" under a one-token-per-char
encoding with chunk_size 2, overlap 1 and fuel 2 satisfies every clause. -/
theorem chunk_text_with_overlap_windows_witness :
    (0 : Int) < 2 ∧ (0 : Int) ≤ 1 ∧ (1 : Int) < 2
    ∧ (natEnc.encode "ab").length ≤ 2
    ∧ ∃ ws : List (List Nat),
        chunk_text_with_overlap_v4 natEnc "ab" 2 1 2 = some (ws.map natEnc.decode)
        ∧ (∀ i, (h : i < ws.length) →
            ws.get ⟨i, h⟩
              = ((natEnc.encode "ab").drop (((2 : Int) - 1).toNat * i)).take (2 : Int).toNat)
        ∧ (∀ i, i < ws.length →
            ((2 : Int) - 1).toNat * i < (natEnc.encode "ab").length)
        ∧ (∀ j, ((2 : Int) - 1).toNat * j < (natEnc.encode "ab").length →
            j < ws.length)
        ∧ (∀ w, w ∈ ws → w.length ≤ (2 : Int).toNat)
        ∧ (∀ i, (h : i + 1 < ws.length) →
            (ws.get ⟨i, Nat.lt_of_succ_lt h⟩).length = (2 : Int).toNat →
            (ws.get ⟨i + 1, h⟩).take (1 : Int).toNat
              = (ws.get ⟨i, Nat.lt_of_succ_lt h⟩).drop ((2 : Int).toNat - (1 : Int).toNat)) :=
  ⟨by decide, by decide, by decide, by decide,
    chunk_text_with_overlap_windows natEnc "ab" 2 1 (by decide) (by decide)
      (by decide) 2 (by decide)⟩

theorem chunkLoop4_total (d : List Nat → String) (tokens : List Nat)
    (c v : Int) (hstep : v < c) :
    ∀ (fuel : Nat) (start : Int), (tokens.length : Int) ≤ start + fuel →
      ∃ chunks, chunkLoop4 d tokens c v start fuel = some chunks := by
  intro fuel
  induction fuel with
  | zero =>
    intro start h
    refine ⟨[], ?_⟩
    simp only [chunkLoop4]
    rw [if_neg (by omega)]
  | succ f ih =>
    intro start h
    by_cases hlt : start < (tokens.length : Int)
    · obtain ⟨r, hr⟩ := ih (start + (c - v)) (by omega)
      refine ⟨d (pySlice tokens start (start + c)) :: r, ?_⟩
      simp only [chunkLoop4]
      rw [if_pos hlt, hr]
      rfl
    · refine ⟨[], ?_⟩
      simp only [chunkLoop4]
      rw [if_neg hlt]

/-- C4 (amended): for every text and every configuration with
`overlap < chunk_size`, `chunk_text_with_overlap` terminates — any fuel of
at least the token count yields a result — and its sliding-window loop
advances `start` by `chunk_size - overlap` each iteration.  (As stated
over all parser-accepted integers the claim is false: with
`chunk_size ≤ overlap` the loop never terminates on non-empty input, see
the counterexample.) -/
theorem chunk_text_with_overlap_terminates (enc : Encoding) (text : String)
    (c v : Int) (hstep : v < c) :
    (∀ fuel : Nat, (enc.encode text).length ≤ fuel →
        ∃ chunks, chunk_text_with_overlap_v4 enc text c v fuel = some chunks)
    ∧ (∀ (d : List Nat → String) (tokens : List Nat) (start : Int) (f : Nat),
        start < (tokens.length : Int) →
          chunkLoop4 d tokens c v start (f + 1)
            = (chunkLoop4 d tokens c v (start + (c - v)) f).map
                (fun rest => d (pySlice tokens start (start + c)) :: rest)) := by
  constructor
  · intro fuel hfuel
    exact chunkLoop4_total enc.decode (enc.encode text) c v hstep fuel 0
      (by omega)
  · intro d tokens start f hlt
    simp only [chunkLoop4]
    rw [if_pos hlt]

/-- Concrete run of the C4 theorem: chunk_size 2, overlap 1 on "ab"
terminates with fuel 2. -/
theorem chunk_text_with_overlap_terminates_witness :
    (1 : Int) < 2
    ∧ ∃ chunks, chunk_text_with_overlap_v4 natEnc "ab" 2 1 2 = some chunks :=
  ⟨by decide,
    (chunk_text_with_overlap_terminates natEnc "ab" 2 1 (by decide)).1 2
      (by decide)⟩

theorem chunkLoop4_none_of_step_nonpos (d : List Nat → String)
    (tokens : List Nat) (c v : Int) (hcv : c ≤ v) :
    ∀ (fuel : Nat) (start : Int), start < (tokens.length : Int) →
      chunkLoop4 d tokens c v start fuel = none := by
  intro fuel
  induction fuel with
  | zero =>
    intro start h
    simp only [chunkLoop4]
    rw [if_pos h]
  | succ f ih =>
    intro start h
    simp only [chunkLoop4]
    rw [if_pos h, ih (start + (c - v)) (by omega)]
    rfl

/-- C4 counterexample: the parser accepts `chunk_size = 1, overlap = 1`,
and on the two-token text "ab" the loop then never terminates — no amount
of fuel produces a chunk list. -/
theorem chunk_text_with_overlap_diverges :
    ¬ ∃ (fuel : Nat) (chunks : List String),
        chunk_text_with_overlap_v4 natEnc "ab" 1 1 fuel = some chunks := by
  rintro ⟨fuel, chunks, h⟩
  rw [chunk_text_with_overlap_v4,
    chunkLoop4_none_of_step_nonpos natEnc.decode (natEnc.encode "ab") 1 1
      le_rfl fuel 0 (by decide)] at h
  exact Option.noConfusion h

theorem chunkLoop3_eq_chunkLoop4 (d : List Nat → String) (tokens : List Nat)
    (c v : Int) :
    ∀ (fuel : Nat) (start : Int),
      chunkLoop3 d tokens c v start fuel = chunkLoop4 d tokens c v start fuel := by
  intro fuel
  induction fuel with
  | zero =>
    intro start
    simp only [chunkLoop3, chunkLoop4]
  | succ f ih =>
    intro start
    simp only [chunkLoop3, chunkLoop4]
    rw [ih]

/-- C5: the two script revisions of `chunk_text_with_overlap` —
src/embeddings/3_split_to_chunks.py and src/embeddings/4_chunking.py — are
extensionally equal: for every encoding, text, chunk_size, overlap and
fuel they produce the same result. -/
theorem chunk_text_with_overlap_revisions_equal (enc : Encoding)
    (text : String) (c v : Int) (fuel : Nat) :
    chunk_text_with_overlap_v3 enc text c v fuel
      = chunk_text_with_overlap_v4 enc text c v fuel :=
  chunkLoop3_eq_chunkLoop4 enc.decode (enc.encode text) c v fuel 0

/-! ### src/embeddings/7_embeddings.py — query_chroma_db (lines 149–237)

The OpenAI embedding API and the ChromaDB client are external and
fallible; they are abstracted as `Except`-valued inputs.  `compute_embedding`
re-raises on failure, so it is a `Except E (List ℝ)`; the ChromaDB query
(client creation, collection lookup and `collection.query`) is a
`Except E DbResult`.  The initial `compute_embedding(api_key, query)` call
sits OUTSIDE the `try` block in the source, so its failure propagates;
everything after it is inside the `try` whose handler returns `{}`
(modelled as `none`). -/

/-- One candidate entry of the `"documents"` list: keys `"text"`,
`"similarity_score"` and `"metadata"`. -/
structure CandidateDoc where
  text : String
  similarity_score : ℝ
  metadata : List (String × String)

/-- The successful return value: keys `"combined_context"` and
`"documents"`. -/
structure QueryResult where
  combined_context : String
  documents : List CandidateDoc

/-- The lists extracted from `collection.query` results: `docs`, `metas`
and `embs` (an embedding may be missing / None). -/
structure DbResult where
  docs : List String
  metas : List (List (String × String))
  embs : List (Option (List ℝ))

/-- The embedding used for candidate `i`: the stored `embs[i]` when
present and not None, otherwise a fresh `compute_embedding` call (which
may raise). -/
def candidateEmb {E : Type} (embedDoc : String → Except E (List ℝ))
    (db : DbResult) (i : Nat) (doc : String) : Except E (List ℝ) :=
  match db.embs.getD i none with
  | some eb => Except.ok eb
  | none => embedDoc doc

/-- The dict appended to `candidate_docs` for candidate `i`. -/
noncomputable def mkCandidate (qe : List ℝ) (db : DbResult) (i : Nat)
    (doc : String) (eb : List ℝ) : CandidateDoc :=
  { text := doc
    similarity_score := cosine_similarity qe eb
    metadata := db.metas.getD i [] }

/-- The candidate-building `for` loop over `enumerate(docs)` (truncated at
`top_n`); the first raised exception aborts the loop and bubbles to the
enclosing `try`. -/
noncomputable def candidateDocsE {E : Type} (qe : List ℝ)
    (embedDoc : String → Except E (List ℝ)) (db : DbResult) :
    List (Nat × String) → Except E (List CandidateDoc)
  | [] => Except.ok []
  | (i, doc) :: rest =>
    match candidateEmb embedDoc db i doc with
    | Except.error e => Except.error e
    | Except.ok eb =>
      match candidateDocsE qe embedDoc db rest with
      | Except.error e => Except.error e
      | Except.ok tail => Except.ok (mkCandidate qe db i doc eb :: tail)

/-- `candidate_docs.sort(key=lambda x: x["similarity_score"], reverse=True)`:
stable sort, highest similarity first. -/
noncomputable def sortCandidates (l : List CandidateDoc) : List CandidateDoc :=
  l.mergeSort (fun a b => decide (b.similarity_score ≤ a.similarity_score))

/-- The body of the `try` block of `query_chroma_db`: fetch the ChromaDB
results, build the candidate list, sort it and join the texts with a
newline. -/
noncomputable def queryTryBlock {E : Type} (qe : List ℝ)
    (db : Except E DbResult) (embedDoc : String → Except E (List ℝ))
    (top_n : Nat) : Except E QueryResult :=
  match db with
  | Except.error e => Except.error e
  | Except.ok dbr =>
    match candidateDocsE qe embedDoc dbr ((dbr.docs.take top_n).enum) with
    | Except.error e => Except.error e
    | Except.ok cands =>
      Except.ok
        { combined_context :=
            String.intercalate "\n" ((sortCandidates cands).map (fun x => x.text))
          documents := sortCandidates cands }

/-- `query_chroma_db` (src/embeddings/7_embeddings.py lines 149–237): the
query embedding is computed before the `try` block, so its exception
propagates; an exception inside the `try` is logged and `{}` (here `none`)
is returned; otherwise the two-key result dict is returned. -/
noncomputable def query_chroma_db {E : Type} (embedQuery : Except E (List ℝ))
    (db : Except E DbResult) (embedDoc : String → Except E (List ℝ))
    (top_n : Nat) : Except E (Option QueryResult) :=
  match embedQuery with
  | Except.error e => Except.error e
  | Except.ok qe =>
    match queryTryBlock qe db embedDoc top_n with
    | Except.error _ => Except.ok none
    | Except.ok r => Except.ok (some r)

theorem query_chroma_db_of_error {E : Type} (e : E) (db : Except E DbResult)
    (embedDoc : String → Except E (List ℝ)) (top_n : Nat) :
    query_chroma_db (Except.error e) db embedDoc top_n = Except.error e := rfl

theorem query_chroma_db_of_ok {E : Type} (qe : List ℝ)
    (db : Except E DbResult) (embedDoc : String → Except E (List ℝ))
    (top_n : Nat) :
    query_chroma_db (Except.ok qe) db embedDoc top_n
      = match queryTryBlock qe db embedDoc top_n with
        | Except.error _ => Except.ok none
        | Except.ok r => Except.ok (some r) := rfl

theorem queryTryBlock_of_error {E : Type} (qe : List ℝ) (e : E)
    (embedDoc : String → Except E (List ℝ)) (top_n : Nat) :
    queryTryBlock qe (Except.error e) embedDoc top_n = Except.error e := rfl

theorem queryTryBlock_of_ok {E : Type} (qe : List ℝ) (dbr : DbResult)
    (embedDoc : String → Except E (List ℝ)) (top_n : Nat) :
    queryTryBlock qe (Except.ok dbr) embedDoc top_n
      = match candidateDocsE qe embedDoc dbr ((dbr.docs.take top_n).enum) with
        | Except.error e => Except.error e
        | Except.ok cands =>
          Except.ok
            { combined_context :=
                String.intercalate "\n"
                  ((sortCandidates cands).map (fun x => x.text))
              documents := sortCandidates cands } := rfl

theorem candidateDocsE_mem {E : Type} (qe : List ℝ)
    (embedDoc : String → Except E (List ℝ)) (db : DbResult) :
    ∀ (l : List (Nat × String)) (cands : List CandidateDoc),
      candidateDocsE qe embedDoc db l = Except.ok cands →
      ∀ d ∈ cands, ∃ i doc eb, (i, doc) ∈ l
        ∧ candidateEmb embedDoc db i doc = Except.ok eb
        ∧ d = mkCandidate qe db i doc eb := by
  intro l
  induction l with
  | nil =>
    intro cands h d hd
    simp only [candidateDocsE] at h
    cases h
    simp at hd
  | cons p rest ih =>
    obtain ⟨i, doc⟩ := p
    intro cands h d hd
    cases heb : candidateEmb embedDoc db i doc with
    | error e =>
      simp only [candidateDocsE, heb] at h
      cases h
    | ok eb =>
      cases htail : candidateDocsE qe embedDoc db rest with
      | error e =>
        simp only [candidateDocsE, heb, htail] at h
        cases h
      | ok tail =>
        simp only [candidateDocsE, heb, htail] at h
        cases h
        rcases List.mem_cons.mp hd with hd1 | hd2
        · exact ⟨i, doc, eb, List.mem_cons_self _ _, heb, hd1⟩
        · obtain ⟨i', doc', eb', hmem, heb', hd'⟩ := ih tail htail d hd2
          exact ⟨i', doc', eb', List.mem_cons_of_mem _ hmem, heb', hd'⟩

theorem sortCandidates_sorted (l : List CandidateDoc) :
    List.Sorted (fun a b : CandidateDoc =>
      b.similarity_score ≤ a.similarity_score) (sortCandidates l) := by
  have h := @List.sorted_mergeSort CandidateDoc
    (fun a b : CandidateDoc =>
      decide (b.similarity_score ≤ a.similarity_score))
    (fun a b c h1 h2 => by
      simp only [decide_eq_true_eq] at h1 h2 ⊢
      exact le_trans h2 h1)
    (fun a b => by
      rcases le_total b.similarity_score a.similarity_score with h | h
      · simp [h]
      · simp [h])
    l
  simp only [decide_eq_true_eq] at h
  exact h

theorem sortCandidates_mem (l : List CandidateDoc) (d : CandidateDoc) :
    d ∈ sortCandidates l ↔ d ∈ l :=
  (List.mergeSort_perm l _).mem_iff

/-- C2: whenever `query_chroma_db` succeeds with a result dict, its
`"documents"` list is sorted in non-increasing order of
`"similarity_score"`, each score is the cosine similarity of the query
embedding and that candidate's embedding (the stored one, or a freshly
computed one when missing), and `"combined_context"` is the `"text"`
fields of the documents joined with a newline in that sorted order. -/
theorem query_chroma_db_ranking {E : Type} (embedQuery : Except E (List ℝ))
    (db : Except E DbResult) (embedDoc : String → Except E (List ℝ))
    (top_n : Nat) (r : QueryResult)
    (h : query_chroma_db embedQuery db embedDoc top_n = Except.ok (some r)) :
    List.Sorted (fun a b : CandidateDoc =>
      b.similarity_score ≤ a.similarity_score) r.documents
    ∧ r.combined_context
        = String.intercalate "\n" (r.documents.map (fun x => x.text))
    ∧ ∀ d ∈ r.documents, ∃ qe dbr i doc eb,
        embedQuery = Except.ok qe ∧ db = Except.ok dbr
        ∧ (i, doc) ∈ (dbr.docs.take top_n).enum
        ∧ candidateEmb embedDoc dbr i doc = Except.ok eb
        ∧ d.text = doc
        ∧ d.similarity_score = cosine_similarity qe eb := by
  cases hq : embedQuery with
  | error e =>
    rw [hq, query_chroma_db_of_error] at h
    cases h
  | ok qe =>
    rw [hq, query_chroma_db_of_ok] at h
    cases htb : queryTryBlock qe db embedDoc top_n with
    | error e =>
      simp only [htb] at h
      cases h
    | ok r0 =>
      simp only [htb] at h
      cases h
      cases hdb : db with
      | error e =>
        rw [hdb, queryTryBlock_of_error] at htb
        cases htb
      | ok dbr =>
        rw [hdb, queryTryBlock_of_ok] at htb
        cases hcands : candidateDocsE qe embedDoc dbr
            ((dbr.docs.take top_n).enum) with
        | error e =>
          simp only [hcands] at htb
          cases htb
        | ok cands =>
          simp only [hcands] at htb
          cases htb
          refine ⟨sortCandidates_sorted cands, rfl, ?_⟩
          intro d hd
          have hd' : d ∈ cands := (sortCandidates_mem cands d).mp hd
          obtain ⟨i, doc, eb, hmem, heb, rfl⟩ :=
            candidateDocsE_mem qe embedDoc dbr _ cands hcands d hd'
          exact ⟨qe, dbr, i, doc, eb, rfl, rfl, hmem, heb, rfl, rfl⟩

/-- Concrete run of the C2 theorem on the empty database: the query
succeeds with the empty result and its documents list is sorted. -/
theorem query_chroma_db_ranking_witness :
    List.Sorted (fun a b : CandidateDoc =>
      b.similarity_score ≤ a.similarity_score)
      (QueryResult.mk "" []).documents := by
  have htb : queryTryBlock ([] : List ℝ)
      (Except.ok (DbResult.mk [] [] []) : Except Unit DbResult)
      (fun _ => Except.ok ([] : List ℝ)) 0
      = Except.ok (QueryResult.mk "" []) := by
    have hsort : sortCandidates [] = [] := List.mergeSort_nil
    have hcands : candidateDocsE ([] : List ℝ)
        (fun _ => Except.ok ([] : List ℝ) : String → Except Unit (List ℝ))
        (DbResult.mk [] [] [])
        (((DbResult.mk [] [] []).docs.take 0).enum) = Except.ok [] := rfl
    rw [queryTryBlock_of_ok]
    simp only [hcands, hsort, List.map_nil]
    rfl
  have hq : query_chroma_db
      (Except.ok ([] : List ℝ) : Except Unit (List ℝ))
      (Except.ok (DbResult.mk [] [] []))
      (fun _ => Except.ok ([] : List ℝ)) 0
      = Except.ok (some (QueryResult.mk "" [])) := by
    rw [query_chroma_db_of_ok, htb]
  exact (query_chroma_db_ranking
    (Except.ok ([] : List ℝ) : Except Unit (List ℝ))
    (Except.ok (DbResult.mk [] [] []))
    (fun _ => Except.ok ([] : List ℝ)) 0 (QueryResult.mk "" []) hq).1

/-- C7 (amended): once the query embedding has been computed successfully,
`query_chroma_db` never propagates an exception: every failure inside the
`try` block (ChromaDB access or candidate embedding) yields the empty dict
`{}`, and on success the full two-key result is returned — never a partial
one.  (As stated the claim is false: the initial `compute_embedding` call
for the query sits outside the `try` block and its exception propagates,
see the counterexample.) -/
theorem query_chroma_db_catches {E : Type} (qe : List ℝ)
    (db : Except E DbResult) (embedDoc : String → Except E (List ℝ))
    (top_n : Nat) :
    (∃ o, query_chroma_db (Except.ok qe) db embedDoc top_n = Except.ok o)
    ∧ (∀ e, queryTryBlock qe db embedDoc top_n = Except.error e →
        query_chroma_db (Except.ok qe) db embedDoc top_n = Except.ok none)
    ∧ (∀ r, queryTryBlock qe db embedDoc top_n = Except.ok r →
        query_chroma_db (Except.ok qe) db embedDoc top_n
          = Except.ok (some r)) := by
  refine ⟨?_, ?_, ?_⟩
  · cases htb : queryTryBlock qe db embedDoc top_n with
    | error e =>
      exact ⟨none, by rw [query_chroma_db_of_ok, htb]⟩
    | ok r =>
      exact ⟨some r, by rw [query_chroma_db_of_ok, htb]⟩
  · intro e htb
    rw [query_chroma_db_of_ok, htb]
  · intro r htb
    rw [query_chroma_db_of_ok, htb]

/-- Concrete run of the C7 theorem: with the ChromaDB access failing, the
function returns the empty dict rather than propagating. -/
theorem query_chroma_db_catches_witness :
    query_chroma_db (Except.ok ([] : List ℝ))
      (Except.error () : Except Unit DbResult)
      (fun _ => Except.ok ([] : List ℝ)) 1 = Except.ok none := by
  have htb : queryTryBlock ([] : List ℝ)
      (Except.error () : Except Unit DbResult)
      (fun _ => Except.ok ([] : List ℝ)) 1 = Except.error () := rfl
  exact (query_chroma_db_catches ([] : List ℝ)
    (Except.error () : Except Unit DbResult)
    (fun _ => Except.ok ([] : List ℝ)) 1).2.1 () htb

/-- C7 counterexample: when computing the query embedding itself raises,
`query_chroma_db` propagates the exception instead of returning `{}` —
that call is outside the `try` block. -/
theorem query_chroma_db_propagates :
    query_chroma_db (Except.error () : Except Unit (List ℝ))
      (Except.ok (DbResult.mk [] [] []))
      (fun _ => Except.ok ([] : List ℝ)) 1 = Except.error () := rfl

end AIReply
